import Mathlib

/-!
Verification of `src/env_manager.py` (RonLi-io/env-manager), a CLI tool that
manages `KEY=VALUE` pairs in a `.env`-style file.

Shallow embedding:
* Python strings are Lean `String`s; the handful of Python string methods the
  program uses (`str.strip`, `str.lower`, `str.startswith('#')`,
  `str.split('=', 1)`) are defined below over `List Char`.
* The Python `dict` (insertion-ordered, unique keys) is an association list
  `Env := List (String × String)`; `d[k] = v` is `dictInsert` (update in place
  when the key is present, append otherwise), `del d[k]` is `dictDelete`,
  `k in d` is `dictContains`.
* The file system is `Option String`: `none` is a missing backing file
  (`FileNotFoundError` on open-for-read), `some c` is a file with content `c`.
* Each interactive operation (`add_var`, `edit_var`, `delete_var`) becomes a
  pure function from the manager state and the user's line inputs to the new
  state together with a flag recording whether `save_env_vars` ran.
-/

/-- The characters Python's `str.strip()` removes: exactly those `c` with
`c.isspace()` true (ASCII whitespace, the C1 separators, NEL, and the Unicode
space characters). -/
def pyIsSpace (c : Char) : Bool :=
  c.toNat ∈ [0x09, 0x0a, 0x0b, 0x0c, 0x0d, 0x1c, 0x1d, 0x1e, 0x1f, 0x20,
    0x85, 0xa0, 0x1680, 0x2000, 0x2001, 0x2002, 0x2003, 0x2004, 0x2005,
    0x2006, 0x2007, 0x2008, 0x2009, 0x200a, 0x2028, 0x2029, 0x202f, 0x205f,
    0x3000]

/-- `str.strip()` on a character list: drop whitespace from both ends. -/
def stripList (l : List Char) : List Char :=
  ((l.dropWhile pyIsSpace).reverse.dropWhile pyIsSpace).reverse

/-- Python `s.strip()`. -/
def pyStrip (s : String) : String :=
  String.mk (stripList s.toList)

/-- Python `s.lower()` (the program only compares the result against the
ASCII token `"y"`, for which ASCII case folding is exact). -/
def pyLower (s : String) : String :=
  String.mk (s.toList.map Char.toLower)

/-- Python `line.startswith('#')`. -/
def startsWithHash : List Char → Bool
  | [] => false
  | c :: _ => c = '#'

/-- Python `line.split('=', 1)`: `some (before, after)` splitting at the first
`'='`; `none` when there is no `'='` (the `ValueError` branch of
`load_env_vars`). -/
def splitFirstEq : List Char → Option (List Char × List Char)
  | [] => none
  | c :: cs =>
    if c = '=' then some ([], cs)
    else
      match splitFirstEq cs with
      | none => none
      | some (k, v) => some (c :: k, v)

/-- Splitting file content into lines, as iterating a Python text file does
(the final fragment after the last `'\n'` is kept; when the file ends in
`'\n'` it is the empty line, which `load_env_vars` skips as blank). -/
def splitOnNewline : List Char → List (List Char)
  | [] => [[]]
  | c :: cs =>
    if c = '\n' then [] :: splitOnNewline cs
    else
      match splitOnNewline cs with
      | [] => [[c]]
      | h :: t => (c :: h) :: t

/-- The in-memory mapping `self.env_vars`: a Python 3.7+ `dict` modelled as an
insertion-ordered association list with unique keys. -/
abbrev Env := List (String × String)

/-- Python `key in self.env_vars`. -/
def dictContains (m : Env) (k : String) : Bool :=
  m.any (fun p => p.1 = k)

/-- Python `self.env_vars[key]` (read): the value at the first occurrence of
the key. -/
def dictGet (m : Env) (k : String) : Option String :=
  (m.find? (fun p => p.1 = k)).map Prod.snd

/-- Python `self.env_vars[key] = value`: replace in place when the key is
present, append otherwise — insertion order is preserved. -/
def dictInsert (m : Env) (k v : String) : Env :=
  if dictContains m k then
    m.map (fun p => if p.1 = k then (k, v) else p)
  else
    m ++ [(k, v)]

/-- Python `del self.env_vars[key]`. -/
def dictDelete (m : Env) (k : String) : Env :=
  m.filter (fun p => ¬ p.1 = k)

/-- One iteration of the `for line in f` loop of `load_env_vars`:
strip the line; skip it when blank or a `#` comment; split on the first `'='`;
on `ValueError` (no `'='`) `continue`; otherwise store the stripped key and
stripped value. -/
def loadLine (m : Env) (rawLine : List Char) : Env :=
  if stripList rawLine = [] then m
  else if startsWithHash (stripList rawLine) then m
  else
    match splitFirstEq (stripList rawLine) with
    | none => m
    | some (k, v) => dictInsert m (String.mk (stripList k)) (String.mk (stripList v))

/-- `EnvManager.load_env_vars`: clear the mapping, then read the backing file
line by line through `loadLine`; a missing file (`FileNotFoundError`) just
prints a notice and leaves the mapping empty. -/
def load_env_vars : Option String → Env
  | none => []
  | some content => (splitOnNewline content.toList).foldl loadLine []

/-- `EnvManager.save_env_vars`: the content written to the backing file —
one `f"{key}={value}\n"` line per entry, in iteration order. The file is
opened with mode `'w'`, so this replaces the old content entirely. -/
def save_env_vars : Env → String
  | [] => ""
  | p :: rest => p.1 ++ "=" ++ p.2 ++ "\n" ++ save_env_vars rest

/-- The state an `EnvManager` interacts with: its in-memory mapping and the
backing file's on-disk content (`none` = the file does not exist). -/
structure EnvState where
  env_vars : Env
  disk : Option String
deriving DecidableEq, Repr

/-- `EnvManager.__init__`: load the mapping from the (possibly missing)
backing file; the disk itself is untouched. -/
def EnvManager_init (disk : Option String) : EnvState :=
  { env_vars := load_env_vars disk, disk := disk }

/-- Result of one interactive operation: the new state, plus whether
`save_env_vars` was called (i.e. whether the backing file was rewritten). -/
structure OpResult where
  state : EnvState
  saved : Bool
deriving DecidableEq, Repr

/-- `EnvManager.add_var`, with the two `input()` lines passed as arguments:
strip the key; reject an empty key; reject a key already present; otherwise
strip the value, store the pair and save. -/
def add_var (s : EnvState) (keyInput valueInput : String) : OpResult :=
  let key := pyStrip keyInput
  if key = "" then { state := s, saved := false }
  else if dictContains s.env_vars key then { state := s, saved := false }
  else
    let value := pyStrip valueInput
    let m := dictInsert s.env_vars key value
    { state := { env_vars := m, disk := some (save_env_vars m) }, saved := true }

/-- `EnvManager.edit_var`, with the two `input()` lines passed as arguments:
strip the key; reject a key not present; strip the new value; when it is
empty keep the current value; store and save. -/
def edit_var (s : EnvState) (keyInput valueInput : String) : OpResult :=
  let key := pyStrip keyInput
  if ¬ dictContains s.env_vars key then { state := s, saved := false }
  else
    let current_value := (dictGet s.env_vars key).getD ""
    let v0 := pyStrip valueInput
    let value := if v0 = "" then current_value else v0
    let m := dictInsert s.env_vars key value
    { state := { env_vars := m, disk := some (save_env_vars m) }, saved := true }

/-- `EnvManager.delete_var`, with the two `input()` lines passed as arguments:
strip the key; reject a key not present; ask for confirmation; delete and save
exactly when the stripped, lowercased confirmation equals `"y"`; otherwise
report cancellation and change nothing. -/
def delete_var (s : EnvState) (keyInput confirmInput : String) : OpResult :=
  let key := pyStrip keyInput
  if ¬ dictContains s.env_vars key then { state := s, saved := false }
  else
    let confirm := pyLower (pyStrip confirmInput)
    if confirm = "y" then
      let m := dictDelete s.env_vars key
      { state := { env_vars := m, disk := some (save_env_vars m) }, saved := true }
    else { state := s, saved := false }

/-- The conditions under which one stored entry survives a save/load round
trip verbatim: key and value whitespace-normalized (which every entry held by
the program is, see the normalization invariant), and a key free of `'='`,
not beginning with `'#'`, with no embedded newline on either side. -/
def EntryRoundTrippable (p : String × String) : Prop :=
  pyStrip p.1 = p.1 ∧ pyStrip p.2 = p.2 ∧
  '=' ∉ p.1.toList ∧ '\n' ∉ p.1.toList ∧ '\n' ∉ p.2.toList ∧
  startsWithHash p.1.toList = false

instance : DecidablePred EntryRoundTrippable := fun p => by
  unfold EntryRoundTrippable
  infer_instance

/-- Every key and value of the mapping is free of leading and trailing
whitespace. -/
def NormalizedEnv (m : Env) : Prop :=
  ∀ p ∈ m, pyStrip p.1 = p.1 ∧ pyStrip p.2 = p.2

instance : DecidablePred NormalizedEnv := fun m => by
  unfold NormalizedEnv
  infer_instance

/-! Lemmas about whitespace stripping. -/

/-- The head of a dropWhile result never satisfies the predicate: cons form. -/
theorem dropWhile_eq_cons_head_false {α : Type} {p : α → Bool} {l : List α}
    {c : α} {cs : List α} (h : l.dropWhile p = c :: cs) : p c = false := by
  have hc := List.head?_dropWhile_not p l
  rw [h] at hc
  simpa using hc

/-- Dropping a satisfied-head run twice is the same as dropping it once. -/
theorem dropWhile_idem {α : Type} (p : α → Bool) (l : List α) :
    (l.dropWhile p).dropWhile p = l.dropWhile p := by
  cases h : l.dropWhile p with
  | nil => rfl
  | cons c cs =>
    have hc := dropWhile_eq_cons_head_false h
    simp [List.dropWhile_cons, hc]

/-- A list equal to its whitespace-stripped form is already left- and
right-stripped. -/
theorem dropWhile_of_stripFixed {l : List Char} (h : stripList l = l) :
    l.dropWhile pyIsSpace = l ∧ l.reverse.dropWhile pyIsSpace = l.reverse := by
  have hsub : List.Sublist (l.dropWhile pyIsSpace) l := List.dropWhile_sublist pyIsSpace
  have hsub2 : List.Sublist ((l.dropWhile pyIsSpace).reverse.dropWhile pyIsSpace)
      (l.dropWhile pyIsSpace).reverse := List.dropWhile_sublist pyIsSpace
  have h1 : (stripList l).length ≤ (l.dropWhile pyIsSpace).length := by
    have h2 := hsub2.length_le
    simpa [stripList] using h2
  rw [h] at h1
  have hfix : l.dropWhile pyIsSpace = l :=
    hsub.eq_of_length (Nat.le_antisymm hsub.length_le h1)
  refine ⟨hfix, ?_⟩
  have h2 : (l.reverse.dropWhile pyIsSpace).reverse = l := by
    calc (l.reverse.dropWhile pyIsSpace).reverse
        = ((l.dropWhile pyIsSpace).reverse.dropWhile pyIsSpace).reverse := by rw [hfix]
      _ = stripList l := rfl
      _ = l := h
  have h3 := congrArg List.reverse h2
  simpa using h3

/-- Prepending a left-stripped list and a non-whitespace character leaves
nothing to drop. -/
theorem dropWhile_append_cons {k : List Char} (hk : k.dropWhile pyIsSpace = k)
    {x : Char} (hx : pyIsSpace x = false) {r : List Char} :
    (k ++ x :: r).dropWhile pyIsSpace = k ++ x :: r := by
  cases k with
  | nil => simp [List.dropWhile_cons, hx]
  | cons c cs =>
    have hc := dropWhile_eq_cons_head_false hk
    simp [List.dropWhile_cons, hc]

/-- Stripping is idempotent. -/
theorem stripList_idem (l : List Char) : stripList (stripList l) = stripList l := by
  have hsrev : (stripList l).reverse = (l.dropWhile pyIsSpace).reverse.dropWhile pyIsSpace := by
    simp [stripList]
  have stepB : (stripList l).reverse.dropWhile pyIsSpace = (stripList l).reverse := by
    rw [hsrev]
    exact dropWhile_idem pyIsSpace (l.dropWhile pyIsSpace).reverse
  have stepA : (stripList l).dropWhile pyIsSpace = stripList l := by
    cases hs : stripList l with
    | nil => rfl
    | cons c cs =>
      have hAeq : l.dropWhile pyIsSpace =
          stripList l ++ ((l.dropWhile pyIsSpace).reverse.takeWhile pyIsSpace).reverse := by
        calc l.dropWhile pyIsSpace
            = ((l.dropWhile pyIsSpace).reverse).reverse :=
              (List.reverse_reverse _).symm
          _ = ((l.dropWhile pyIsSpace).reverse.takeWhile pyIsSpace ++
                (l.dropWhile pyIsSpace).reverse.dropWhile pyIsSpace).reverse := by
              rw [List.takeWhile_append_dropWhile]
          _ = ((l.dropWhile pyIsSpace).reverse.dropWhile pyIsSpace).reverse ++
                ((l.dropWhile pyIsSpace).reverse.takeWhile pyIsSpace).reverse := by
              rw [List.reverse_append]
          _ = stripList l ++
                ((l.dropWhile pyIsSpace).reverse.takeWhile pyIsSpace).reverse := rfl
      rw [hs, List.cons_append] at hAeq
      have hc := dropWhile_eq_cons_head_false hAeq
      simp [List.dropWhile_cons, hc]
  calc stripList (stripList l)
      = (((stripList l).dropWhile pyIsSpace).reverse.dropWhile pyIsSpace).reverse := rfl
    _ = ((stripList l).reverse.dropWhile pyIsSpace).reverse := by rw [stepA]
    _ = ((stripList l).reverse).reverse := by rw [stepB]
    _ = stripList l := List.reverse_reverse _

/-- A list without an equals sign makes `split('=', 1)` fail (the
`ValueError`/`continue` branch). -/
theorem splitFirstEq_of_not_mem {l : List Char} (h : '=' ∉ l) :
    splitFirstEq l = none := by
  induction l with
  | nil => rfl
  | cons c cs ih =>
    have hc : ¬ c = '=' := fun hc => h (by simp [hc])
    have hcs : '=' ∉ cs := fun hm => h (List.mem_cons_of_mem c hm)
    simp [splitFirstEq, hc, ih hcs]

/-- Splitting at the first equals sign recovers a key without `'='` and the
remainder verbatim. -/
theorem splitFirstEq_append {k : List Char} (hk : '=' ∉ k) (v : List Char) :
    splitFirstEq (k ++ '=' :: v) = some (k, v) := by
  induction k with
  | nil => simp [splitFirstEq]
  | cons c cs ih =>
    have hc : ¬ c = '=' := fun hc => hk (by simp [hc])
    have hcs : '=' ∉ cs := fun hm => hk (List.mem_cons_of_mem c hm)
    simp [splitFirstEq, hc, ih hcs]

/-- A `key=value` line starts with `'#'` exactly when the key does. -/
theorem startsWithHash_append {k : List Char} (hk : startsWithHash k = false)
    (v : List Char) : startsWithHash (k ++ '=' :: v) = false := by
  cases k with
  | nil => simp [startsWithHash]
  | cons c cs => simpa [startsWithHash] using hk

/-- Line splitting peels off one newline-free line at a time. -/
theorem splitOnNewline_append {a : List Char} (ha : '\n' ∉ a) (b : List Char) :
    splitOnNewline (a ++ '\n' :: b) = a :: splitOnNewline b := by
  induction a with
  | nil => simp [splitOnNewline]
  | cons c cs ih =>
    have hc : ¬ c = '\n' := fun hc => ha (by simp [hc])
    have hcs : '\n' ∉ cs := fun hm => ha (List.mem_cons_of_mem c hm)
    rw [List.cons_append]
    simp only [splitOnNewline, ih hcs]
    simp [hc]

/-- A line of the shape written by `save_env_vars` is already stripped, when
its key and value are. -/
theorem stripList_entryLine {k v : List Char} (hk : stripList k = k)
    (hv : stripList v = v) : stripList (k ++ '=' :: v) = k ++ '=' :: v := by
  have hkl := (dropWhile_of_stripFixed hk).1
  have hvr := (dropWhile_of_stripFixed hv).2
  have hx : pyIsSpace '=' = false := by decide
  have step1 : (k ++ '=' :: v).dropWhile pyIsSpace = k ++ '=' :: v :=
    dropWhile_append_cons hkl hx
  have hrev : (k ++ '=' :: v).reverse = v.reverse ++ '=' :: k.reverse := by
    simp
  have step2 : (k ++ '=' :: v).reverse.dropWhile pyIsSpace =
      (k ++ '=' :: v).reverse := by
    rw [hrev]
    exact dropWhile_append_cons hvr hx
  calc stripList (k ++ '=' :: v)
      = (((k ++ '=' :: v).dropWhile pyIsSpace).reverse.dropWhile pyIsSpace).reverse := rfl
    _ = ((k ++ '=' :: v).reverse.dropWhile pyIsSpace).reverse := by rw [step1]
    _ = (k ++ '=' :: v).reverse.reverse := by rw [step2]
    _ = k ++ '=' :: v := List.reverse_reverse _

/-! Lemmas about the dict model. -/

/-- Rebuilding a string from its characters is the identity. -/
theorem mk_toList (s : String) : String.mk s.toList = s := rfl

/-- Inserting an absent key appends it, preserving insertion order. -/
theorem dictInsert_of_not_contains {m : Env} {k : String}
    (h : dictContains m k = false) (v : String) :
    dictInsert m k v = m ++ [(k, v)] := by
  simp [dictInsert, h]

/-- Membership check distributes over append. -/
theorem dictContains_append (m₁ m₂ : Env) (k : String) :
    dictContains (m₁ ++ m₂) k = (dictContains m₁ k || dictContains m₂ k) := by
  simp [dictContains]

/-- A later insert of the same key overwrites the earlier value. -/
theorem dictGet_dictInsert (m : Env) (k v : String) :
    dictGet (dictInsert m k v) k = some v := by
  induction m with
  | nil => simp [dictInsert, dictContains, dictGet]
  | cons p rest ih =>
    by_cases hp : p.1 = k
    · simp [dictInsert, dictContains, hp, dictGet, List.find?_cons]
    · have h1 : dictContains (p :: rest) k = dictContains rest k := by
        simp [dictContains, hp]
      by_cases hc : dictContains rest k = true
      · rw [dictInsert, h1, if_pos hc]
        rw [dictInsert, if_pos hc] at ih
        simpa [dictGet, List.find?_cons, hp] using ih
      · have hc2 : dictContains rest k = false := by
          revert hc
          cases dictContains rest k <;> simp
        rw [dictInsert, h1, if_neg (by simp [hc2])]
        rw [dictInsert, if_neg (by simp [hc2])] at ih
        simpa [dictGet, List.find?_cons, hp] using ih

/-! The save-then-load round trip. -/

/-- Splitting the saved file recovers one line per entry plus the trailing
empty fragment after the final newline. -/
theorem splitOnNewline_save (m : Env)
    (h : ∀ p ∈ m, '\n' ∉ p.1.toList ∧ '\n' ∉ p.2.toList) :
    splitOnNewline (save_env_vars m).toList =
      m.map (fun p => p.1.toList ++ '=' :: p.2.toList) ++ [[]] := by
  induction m with
  | nil => rfl
  | cons p rest ih =>
    have hp := h p (List.mem_cons_self p rest)
    have hrest := fun q hq => h q (List.mem_cons_of_mem p hq)
    have htl : (save_env_vars (p :: rest)).toList =
        (p.1.toList ++ '=' :: p.2.toList) ++ '\n' :: (save_env_vars rest).toList := by
      show (p.1 ++ "=" ++ p.2 ++ "\n" ++ save_env_vars rest).toList = _
      simp
    have hna : '\n' ∉ p.1.toList ++ '=' :: p.2.toList := by
      intro hm
      rcases List.mem_append.mp hm with h1 | h2
      · exact hp.1 h1
      · rcases List.mem_cons.mp h2 with h3 | h4
        · exact absurd h3 (by decide)
        · exact hp.2 h4
    rw [htl, splitOnNewline_append hna, ih hrest]
    simp

/-- The storing branch of the loader, isolated: a stripped, non-blank,
non-comment line with an equals sign stores its trimmed halves. -/
theorem loadLine_split (m : Env) {raw k v : List Char}
    (h0 : ¬ stripList raw = [])
    (h1 : startsWithHash (stripList raw) = false)
    (h2 : splitFirstEq (stripList raw) = some (k, v)) :
    loadLine m raw =
      dictInsert m (String.mk (stripList k)) (String.mk (stripList v)) := by
  unfold loadLine
  rw [if_neg h0, h1]
  simp only [Bool.false_eq_true, if_false]
  rw [h2]

/-- Folding the loader over the saved entry lines replays every entry, in
order, onto the accumulator. -/
theorem foldl_loadLine_entries (m : Env) (acc : Env)
    (hgood : ∀ p ∈ m, EntryRoundTrippable p)
    (hnd : (m.map Prod.fst).Nodup)
    (hdis : ∀ p ∈ m, dictContains acc p.1 = false) :
    (m.map (fun p => p.1.toList ++ '=' :: p.2.toList)).foldl loadLine acc = acc ++ m := by
  induction m generalizing acc with
  | nil => simp
  | cons p rest ih =>
    obtain ⟨hk, hv, hkeq, hknl, hvnl, hkh⟩ := hgood p (List.mem_cons_self p rest)
    have hks : stripList p.1.toList = p.1.toList := congrArg String.toList hk
    have hvs : stripList p.2.toList = p.2.toList := congrArg String.toList hv
    have hline : stripList (p.1.toList ++ '=' :: p.2.toList) =
        p.1.toList ++ '=' :: p.2.toList := stripList_entryLine hks hvs
    have hne : ¬ stripList (p.1.toList ++ '=' :: p.2.toList) = ([] : List Char) := by
      rw [hline]; simp
    have hsh : startsWithHash (stripList (p.1.toList ++ '=' :: p.2.toList)) = false := by
      rw [hline]; exact startsWithHash_append hkh p.2.toList
    have hsp : splitFirstEq (stripList (p.1.toList ++ '=' :: p.2.toList)) =
        some (p.1.toList, p.2.toList) := by
      rw [hline]; exact splitFirstEq_append hkeq p.2.toList
    have hload : loadLine acc (p.1.toList ++ '=' :: p.2.toList) = acc ++ [p] := by
      rw [loadLine_split acc hne hsh hsp]
      rw [hks, hvs, mk_toList, mk_toList,
        dictInsert_of_not_contains (hdis p (List.mem_cons_self p rest))]
    rw [List.map_cons, List.foldl_cons, hload]
    have hnd1 : (p.1 :: rest.map Prod.fst).Nodup := by simpa using hnd
    have hnd2 : (rest.map Prod.fst).Nodup := (List.nodup_cons.mp hnd1).2
    have hnotmem : p.1 ∉ rest.map Prod.fst := (List.nodup_cons.mp hnd1).1
    have hdis2 : ∀ q ∈ rest, dictContains (acc ++ [p]) q.1 = false := by
      intro q hq
      rw [dictContains_append]
      have h1 := hdis q (List.mem_cons_of_mem p hq)
      have h2 : dictContains [p] q.1 = false := by
        have hne2 : ¬ p.1 = q.1 := fun hpq =>
          hnotmem (hpq ▸ List.mem_map_of_mem Prod.fst hq)
        simp [dictContains, hne2]
      rw [h1, h2]
      rfl
    rw [ih (acc ++ [p]) (fun q hq => hgood q (List.mem_cons_of_mem p hq)) hnd2 hdis2]
    simp

/-- The save-then-load round trip, under the conditions of
`EntryRoundTrippable` and duplicate-free keys. -/
theorem load_of_save (m : Env) (hnd : (m.map Prod.fst).Nodup)
    (hgood : ∀ p ∈ m, EntryRoundTrippable p) :
    load_env_vars (some (save_env_vars m)) = m := by
  show (splitOnNewline (save_env_vars m).toList).foldl loadLine [] = m
  rw [splitOnNewline_save m
    (fun p hp => ⟨(hgood p hp).2.2.2.1, (hgood p hp).2.2.2.2.1⟩)]
  rw [List.foldl_append]
  rw [foldl_loadLine_entries m [] hgood hnd (fun p _ => rfl)]
  simp [loadLine, stripList]

/-! Further dict lemmas (used for the keep-current behavior of edit). -/

/-- A positive membership check produces a value to read. -/
theorem dictGet_isSome_of_contains {m : Env} {k : String}
    (h : dictContains m k = true) : ∃ v, dictGet m k = some v := by
  induction m with
  | nil => simp [dictContains] at h
  | cons p rest ih =>
    by_cases hp : p.1 = k
    · exact ⟨p.2, by simp [dictGet, List.find?_cons, hp]⟩
    · have h2 : dictContains rest k = true := by
        simpa [dictContains, hp] using h
      obtain ⟨v, hv⟩ := ih h2
      exact ⟨v, by simpa [dictGet, List.find?_cons, hp] using hv⟩

/-- Every read value belongs to some entry of the mapping. -/
theorem dictGet_mem {m : Env} {k v : String} (h : dictGet m k = some v) :
    ∃ q ∈ m, q.2 = v := by
  unfold dictGet at h
  cases hf : m.find? (fun p => p.1 = k) with
  | none => rw [hf] at h; simp at h
  | some q =>
    rw [hf] at h
    simp at h
    exact ⟨q, List.mem_of_find?_eq_some hf, h⟩

/-- With duplicate-free keys, every entry sharing the looked-up key is the
found entry itself. -/
theorem mem_eq_of_dictGet {m : Env} {k v : String}
    (hnd : (m.map Prod.fst).Nodup) (h : dictGet m k = some v)
    {p : String × String} (hp : p ∈ m) (hk : p.1 = k) : p = (k, v) := by
  induction m with
  | nil => simp at hp
  | cons q rest ih =>
    have hnd1 : (q.1 :: rest.map Prod.fst).Nodup := by simpa using hnd
    have hnotmem : q.1 ∉ rest.map Prod.fst := (List.nodup_cons.mp hnd1).1
    have hnd2 : (rest.map Prod.fst).Nodup := (List.nodup_cons.mp hnd1).2
    by_cases hq : q.1 = k
    · have hv : v = q.2 := by
        simp [dictGet, List.find?_cons, hq] at h
        exact h.symm
      rcases List.mem_cons.mp hp with h1 | h2
      · rw [h1, hv, ← hq]
      · exfalso
        apply hnotmem
        rw [hq, ← hk]
        exact List.mem_map_of_mem Prod.fst h2
    · have h2 : dictGet rest k = some v := by
        simpa [dictGet, List.find?_cons, hq] using h
      rcases List.mem_cons.mp hp with h1 | h3
      · exact absurd (h1 ▸ hk) hq
      · exact ih hnd2 h2 h3

/-- Re-inserting the value already present leaves the mapping unchanged
(the keep-current branch of edit). -/
theorem dictInsert_self {m : Env} {k v : String}
    (hnd : (m.map Prod.fst).Nodup) (h : dictGet m k = some v) :
    dictInsert m k v = m := by
  have hc : dictContains m k = true := by
    obtain ⟨q, hqm, _⟩ := dictGet_mem h
    unfold dictGet at h
    cases hf : m.find? (fun p => p.1 = k) with
    | none => rw [hf] at h; simp at h
    | some r =>
      have hr := List.find?_some hf
      simp only [decide_eq_true_eq] at hr
      unfold dictContains
      rw [List.any_eq_true]
      exact ⟨r, List.mem_of_find?_eq_some hf, by simpa using hr⟩
  unfold dictInsert
  rw [if_pos hc]
  have : ∀ p ∈ m, (if p.1 = k then (k, v) else p) = p := by
    intro p hp
    by_cases hpk : p.1 = k
    · rw [if_pos hpk, mem_eq_of_dictGet hnd h hp hpk]
    · rw [if_neg hpk]
  calc m.map (fun p => if p.1 = k then (k, v) else p)
      = m.map id := List.map_congr_left this
    _ = m := List.map_id m

/-! Lemmas about the skip branches of the loader (used for C3). -/

/-- Stripping only removes characters. -/
theorem stripList_subset (l : List Char) : ∀ x ∈ stripList l, x ∈ l := by
  intro x hx
  unfold stripList at hx
  rw [List.mem_reverse] at hx
  have h1 := List.dropWhile_subset (l := (l.dropWhile pyIsSpace).reverse) pyIsSpace hx
  rw [List.mem_reverse] at h1
  exact List.dropWhile_subset pyIsSpace h1

/-- A line that strips to nothing is skipped. -/
theorem loadLine_blank (m : Env) {raw : List Char}
    (h : stripList raw = []) : loadLine m raw = m := by
  unfold loadLine
  rw [if_pos h]

/-- A comment line is skipped. -/
theorem loadLine_comment (m : Env) {raw : List Char}
    (h : startsWithHash (stripList raw) = true) : loadLine m raw = m := by
  unfold loadLine
  by_cases h0 : stripList raw = []
  · rw [if_pos h0]
  · rw [if_neg h0, h, if_pos rfl]

/-- A line without an equals sign is silently skipped. -/
theorem loadLine_noEq (m : Env) {raw : List Char}
    (h : '=' ∉ raw) : loadLine m raw = m := by
  have hs : '=' ∉ stripList raw := fun hm => h (stripList_subset raw '=' hm)
  have hn := splitFirstEq_of_not_mem hs
  unfold loadLine
  by_cases h0 : stripList raw = []
  · rw [if_pos h0]
  · rw [if_neg h0]
    by_cases h1 : startsWithHash (stripList raw) = true
    · rw [h1, if_pos rfl]
    · have h1f : startsWithHash (stripList raw) = false := by
        revert h1; cases startsWithHash (stripList raw) <;> simp
      rw [h1f]
      simp only [Bool.false_eq_true, if_false]
      rw [hn]

/-! Closed-form equations for the three interactive operations. -/

/-- Unfolded form of `add_var`. -/
theorem add_var_eq (s : EnvState) (a b : String) :
    add_var s a b =
      if pyStrip a = "" then ⟨s, false⟩
      else if dictContains s.env_vars (pyStrip a) then ⟨s, false⟩
      else
        ⟨⟨dictInsert s.env_vars (pyStrip a) (pyStrip b),
          some (save_env_vars (dictInsert s.env_vars (pyStrip a) (pyStrip b)))⟩,
          true⟩ := rfl

/-- Unfolded form of `edit_var`. -/
theorem edit_var_eq (s : EnvState) (a b : String) :
    edit_var s a b =
      if ¬ dictContains s.env_vars (pyStrip a) then ⟨s, false⟩
      else
        ⟨⟨dictInsert s.env_vars (pyStrip a)
            (if pyStrip b = "" then (dictGet s.env_vars (pyStrip a)).getD ""
              else pyStrip b),
          some (save_env_vars (dictInsert s.env_vars (pyStrip a)
            (if pyStrip b = "" then (dictGet s.env_vars (pyStrip a)).getD ""
              else pyStrip b)))⟩,
          true⟩ := rfl

/-- Unfolded form of `delete_var`. -/
theorem delete_var_eq (s : EnvState) (a c : String) :
    delete_var s a c =
      if ¬ dictContains s.env_vars (pyStrip a) then ⟨s, false⟩
      else if pyLower (pyStrip c) = "y" then
        ⟨⟨dictDelete s.env_vars (pyStrip a),
          some (save_env_vars (dictDelete s.env_vars (pyStrip a)))⟩, true⟩
      else ⟨s, false⟩ := rfl

/-! Preservation of the whitespace normalization invariant. -/

/-- Stripping twice is stripping once. -/
theorem pyStrip_idem (s : String) : pyStrip (pyStrip s) = pyStrip s :=
  congrArg String.mk (stripList_idem s.toList)

/-- Inserting a normalized pair preserves normalization. -/
theorem NormalizedEnv_dictInsert {m : Env} {k v : String}
    (hm : NormalizedEnv m) (hk : pyStrip k = k) (hv : pyStrip v = v) :
    NormalizedEnv (dictInsert m k v) := by
  unfold dictInsert
  by_cases hc : dictContains m k = true
  · rw [if_pos hc]
    intro p hp
    rcases List.mem_map.mp hp with ⟨q, hq, hqe⟩
    by_cases hqk : q.1 = k
    · rw [← hqe, if_pos hqk]
      exact ⟨hk, hv⟩
    · rw [← hqe, if_neg hqk]
      exact hm q hq
  · rw [if_neg hc]
    intro p hp
    rcases List.mem_append.mp hp with h1 | h2
    · exact hm p h1
    · have : p = (k, v) := by simpa using h2
      rw [this]
      exact ⟨hk, hv⟩

/-- Deleting preserves normalization. -/
theorem NormalizedEnv_dictDelete {m : Env} (k : String) (hm : NormalizedEnv m) :
    NormalizedEnv (dictDelete m k) :=
  fun p hp => hm p (List.mem_of_mem_filter hp)

/-- Each loaded line keeps the mapping normalized, since both stored halves
are stripped before storing. -/
theorem NormalizedEnv_loadLine {m : Env} (raw : List Char)
    (hm : NormalizedEnv m) : NormalizedEnv (loadLine m raw) := by
  by_cases h0 : stripList raw = []
  · rw [loadLine_blank m h0]; exact hm
  · by_cases h1 : startsWithHash (stripList raw) = true
    · rw [loadLine_comment m h1]; exact hm
    · have h1f : startsWithHash (stripList raw) = false := by
        revert h1; cases startsWithHash (stripList raw) <;> simp
      cases hsp : splitFirstEq (stripList raw) with
      | none =>
        have heq : loadLine m raw = m := by
          unfold loadLine
          rw [if_neg h0, h1f]
          simp only [Bool.false_eq_true, if_false]
          rw [hsp]
        rw [heq]; exact hm
      | some kv =>
        obtain ⟨k, v⟩ := kv
        rw [loadLine_split m h0 h1f hsp]
        exact NormalizedEnv_dictInsert hm
          (congrArg String.mk (stripList_idem k))
          (congrArg String.mk (stripList_idem v))

/-- Folding the loader from a normalized accumulator stays normalized. -/
theorem NormalizedEnv_foldl (lines : List (List Char)) (acc : Env)
    (hm : NormalizedEnv acc) : NormalizedEnv (lines.foldl loadLine acc) := by
  induction lines generalizing acc with
  | nil => exact hm
  | cons l rest ih =>
    rw [List.foldl_cons]
    exact ih (loadLine acc l) (NormalizedEnv_loadLine l hm)

/-- A fresh load is always normalized. -/
theorem NormalizedEnv_load (d : Option String) :
    NormalizedEnv (load_env_vars d) := by
  cases d with
  | none => intro p hp; exact absurd hp (List.not_mem_nil p)
  | some c =>
    exact NormalizedEnv_foldl (splitOnNewline c.toList) []
      (fun p hp => by simp at hp)

/-- The keep-current branch of edit: an input stripping to the empty string
leaves the mapping exactly as it was, while the file is still rewritten. -/
theorem edit_keepCurrent {s : EnvState} {a b : String}
    (hnd : (s.env_vars.map Prod.fst).Nodup)
    (hc : dictContains s.env_vars (pyStrip a) = true)
    (hb : pyStrip b = "") :
    (edit_var s a b).state.env_vars = s.env_vars ∧
      (edit_var s a b).saved = true := by
  rw [edit_var_eq, if_neg (by simp [hc])]
  obtain ⟨v, hv⟩ := dictGet_isSome_of_contains hc
  rw [if_pos hb, hv]
  simp only [Option.getD_some]
  exact ⟨dictInsert_self hnd hv, trivial⟩

/-! Claim theorems. -/

/-- C1 counterexample: a mapping reachable in a store — the key `A=B`, added
through `add_var` on a fresh store — does not survive the save/load round
trip: it reloads as `A` mapped to `B=c`. -/
theorem roundTrip_counterexample :
    (add_var ⟨[], none⟩ "A=B" "c").state.env_vars = [("A=B", "c")] ∧
    (add_var ⟨[], none⟩ "A=B" "c").saved = true ∧
    load_env_vars (some (save_env_vars [("A=B", "c")])) = [("A", "B=c")] ∧
    ¬ load_env_vars (some (save_env_vars [("A=B", "c")])) = [("A=B", "c")] := by
  decide

/-- C1 (amended): save-then-load from a fresh store restores the mapping
exactly, provided the (already whitespace-normalized) entries have
duplicate-free keys that contain no equals sign and no newline and do not
start with a hash, and newline-free values. -/
theorem roundTrip_normalized (m : Env)
    (hnd : (m.map Prod.fst).Nodup)
    (hgood : ∀ p ∈ m, EntryRoundTrippable p) :
    load_env_vars (some (save_env_vars m)) = m :=
  load_of_save m hnd hgood

/-- C1 witness: the amended round trip at a concrete two-entry mapping. -/
theorem roundTrip_normalized_witness :
    load_env_vars (some (save_env_vars [("FOO", "bar"), ("BAZ", "qux")])) =
      [("FOO", "bar"), ("BAZ", "qux")] :=
  roundTrip_normalized [("FOO", "bar"), ("BAZ", "qux")] (by decide) (by decide)

/-- C2: after any operation that saved (an add, a completed edit, or a
confirmed delete), the backing file content equals the full serialization of
the resulting in-memory mapping; moreover the outcome is independent of the
previous file content — a full rewrite, never a patch. -/
theorem mutation_syncs_disk (s : EnvState) (a b : String) :
    ((add_var s a b).saved = true →
      (add_var s a b).state.disk =
        some (save_env_vars (add_var s a b).state.env_vars)) ∧
    ((edit_var s a b).saved = true →
      (edit_var s a b).state.disk =
        some (save_env_vars (edit_var s a b).state.env_vars)) ∧
    ((delete_var s a b).saved = true →
      (delete_var s a b).state.disk =
        some (save_env_vars (delete_var s a b).state.env_vars)) ∧
    (∀ d : Option String,
      (add_var ⟨s.env_vars, d⟩ a b).saved = (add_var s a b).saved ∧
      ((add_var s a b).saved = true →
        (add_var ⟨s.env_vars, d⟩ a b).state.disk = (add_var s a b).state.disk)) ∧
    (∀ d : Option String,
      (edit_var ⟨s.env_vars, d⟩ a b).saved = (edit_var s a b).saved ∧
      ((edit_var s a b).saved = true →
        (edit_var ⟨s.env_vars, d⟩ a b).state.disk = (edit_var s a b).state.disk)) ∧
    (∀ d : Option String,
      (delete_var ⟨s.env_vars, d⟩ a b).saved = (delete_var s a b).saved ∧
      ((delete_var s a b).saved = true →
        (delete_var ⟨s.env_vars, d⟩ a b).state.disk =
          (delete_var s a b).state.disk)) := by
  refine ⟨?_, ?_, ?_, ?_, ?_, ?_⟩
  · rw [add_var_eq]
    split_ifs <;> intro h <;> first | rfl | simp at h
  · rw [edit_var_eq]
    split_ifs <;> intro h <;> first | rfl | simp at h
  · rw [delete_var_eq]
    split_ifs <;> intro h <;> first | rfl | simp at h
  · intro d
    rw [add_var_eq, add_var_eq]
    split_ifs <;> exact ⟨rfl, fun h => by first | rfl | simp at h⟩
  · intro d
    rw [edit_var_eq, edit_var_eq]
    split_ifs <;> exact ⟨rfl, fun h => by first | rfl | simp at h⟩
  · intro d
    rw [delete_var_eq, delete_var_eq]
    split_ifs <;> exact ⟨rfl, fun h => by first | rfl | simp at h⟩

/-- C2 witness: a concrete saving add, edit and delete, each leaving the disk
equal to the serialization of the resulting mapping. -/
theorem mutation_syncs_disk_witness :
    (add_var ⟨[("FOO", "bar")], some "FOO=bar\n"⟩ "NEW" "v").state.disk =
      some (save_env_vars
        (add_var ⟨[("FOO", "bar")], some "FOO=bar\n"⟩ "NEW" "v").state.env_vars) ∧
    (edit_var ⟨[("FOO", "bar")], some "FOO=bar\n"⟩ "FOO" "baz").state.disk =
      some (save_env_vars
        (edit_var ⟨[("FOO", "bar")], some "FOO=bar\n"⟩ "FOO" "baz").state.env_vars) ∧
    (delete_var ⟨[("FOO", "bar")], some "FOO=bar\n"⟩ "FOO" "y").state.disk =
      some (save_env_vars
        (delete_var ⟨[("FOO", "bar")], some "FOO=bar\n"⟩ "FOO" "y").state.env_vars) := by
  refine ⟨?_, ?_, ?_⟩
  · exact (mutation_syncs_disk ⟨[("FOO", "bar")], some "FOO=bar\n"⟩ "NEW" "v").1
      (by decide)
  · exact (mutation_syncs_disk ⟨[("FOO", "bar")], some "FOO=bar\n"⟩ "FOO" "baz").2.1
      (by decide)
  · exact (mutation_syncs_disk ⟨[("FOO", "bar")], some "FOO=bar\n"⟩ "FOO" "y").2.2.1
      (by decide)

/-- C3: the loader skips blank lines, comment lines and lines without an
equals sign, splits every other line at the first equals sign, trims both
halves and stores them (a later duplicate key overwriting an earlier value),
and the four-line file of the claim loads to exactly FOO mapped to bar. -/
theorem load_parsing_spec :
    load_env_vars (some "# comment\n\nFOO=bar\nBADLINE") = [("FOO", "bar")] ∧
    (∀ (m : Env) (raw : List Char), stripList raw = [] → loadLine m raw = m) ∧
    (∀ (m : Env) (raw : List Char), startsWithHash (stripList raw) = true →
      loadLine m raw = m) ∧
    (∀ (m : Env) (raw : List Char), '=' ∉ raw → loadLine m raw = m) ∧
    (∀ (m : Env) (raw k v : List Char), ¬ stripList raw = [] →
      startsWithHash (stripList raw) = false →
      splitFirstEq (stripList raw) = some (k, v) →
      loadLine m raw =
        dictInsert m (String.mk (stripList k)) (String.mk (stripList v))) ∧
    (∀ (m : Env) (k v : String), dictGet (dictInsert m k v) k = some v) := by
  refine ⟨by decide, ?_, ?_, ?_, ?_, ?_⟩
  · exact fun m raw h => loadLine_blank m h
  · exact fun m raw h => loadLine_comment m h
  · exact fun m raw h => loadLine_noEq m h
  · exact fun m raw k v h0 h1 h2 => loadLine_split m h0 h1 h2
  · exact fun m k v => dictGet_dictInsert m k v

/-- C3 witness: the skip and store branches at concrete lines, and a
duplicate-key overwrite. -/
theorem load_parsing_spec_witness :
    loadLine [("A", "b")] ("   ".toList) = [("A", "b")] ∧
    loadLine [("A", "b")] ("# note".toList) = [("A", "b")] ∧
    loadLine [("A", "b")] ("BADLINE".toList) = [("A", "b")] ∧
    loadLine [] (" FOO = bar ".toList) = [("FOO", "bar")] ∧
    dictGet (dictInsert [("FOO", "bar")] "FOO" "baz") "FOO" = some "baz" := by
  refine ⟨?_, ?_, ?_, ?_, ?_⟩
  · exact load_parsing_spec.2.1 [("A", "b")] ("   ".toList) (by decide)
  · exact load_parsing_spec.2.2.1 [("A", "b")] ("# note".toList) (by decide)
  · exact load_parsing_spec.2.2.2.1 [("A", "b")] ("BADLINE".toList) (by decide)
  · exact (load_parsing_spec.2.2.2.2.1 [] (" FOO = bar ".toList) ("FOO ".toList)
      (" bar".toList) (by decide) (by decide) (by decide)).trans (by decide)
  · exact load_parsing_spec.2.2.2.2.2 [("FOO", "bar")] "FOO" "baz"

/-- C4: each recoverable user-input error — empty key on add, duplicate key
on add, missing key on edit or delete, non-affirmative delete confirmation —
returns the state completely unchanged and performs no save. -/
theorem recoverable_errors_no_mutation (s : EnvState) (a b : String) :
    (pyStrip a = "" → add_var s a b = ⟨s, false⟩) ∧
    (dictContains s.env_vars (pyStrip a) = true → add_var s a b = ⟨s, false⟩) ∧
    (dictContains s.env_vars (pyStrip a) = false → edit_var s a b = ⟨s, false⟩) ∧
    (dictContains s.env_vars (pyStrip a) = false → delete_var s a b = ⟨s, false⟩) ∧
    (dictContains s.env_vars (pyStrip a) = true → ¬ pyLower (pyStrip b) = "y" →
      delete_var s a b = ⟨s, false⟩) := by
  refine ⟨?_, ?_, ?_, ?_, ?_⟩
  · intro h
    rw [add_var_eq, if_pos h]
  · intro h
    rw [add_var_eq]
    by_cases h1 : pyStrip a = ""
    · rw [if_pos h1]
    · rw [if_neg h1, if_pos h]
  · intro h
    rw [edit_var_eq, if_pos (by simp [h])]
  · intro h
    rw [delete_var_eq, if_pos (by simp [h])]
  · intro h hy
    rw [delete_var_eq, if_neg (by simp [h]), if_neg hy]

/-- C4 witness: the five error paths at concrete inputs, all returning the
starting state with no save. -/
theorem recoverable_errors_no_mutation_witness :
    add_var ⟨[("FOO", "bar")], some "FOO=bar\n"⟩ "  " "x" =
      ⟨⟨[("FOO", "bar")], some "FOO=bar\n"⟩, false⟩ ∧
    add_var ⟨[("FOO", "bar")], some "FOO=bar\n"⟩ "FOO" "baz" =
      ⟨⟨[("FOO", "bar")], some "FOO=bar\n"⟩, false⟩ ∧
    edit_var ⟨[("FOO", "bar")], some "FOO=bar\n"⟩ "NOPE" "x" =
      ⟨⟨[("FOO", "bar")], some "FOO=bar\n"⟩, false⟩ ∧
    delete_var ⟨[("FOO", "bar")], some "FOO=bar\n"⟩ "NOPE" "y" =
      ⟨⟨[("FOO", "bar")], some "FOO=bar\n"⟩, false⟩ ∧
    delete_var ⟨[("FOO", "bar")], some "FOO=bar\n"⟩ "FOO" "n" =
      ⟨⟨[("FOO", "bar")], some "FOO=bar\n"⟩, false⟩ := by
  refine ⟨?_, ?_, ?_, ?_, ?_⟩
  · exact (recoverable_errors_no_mutation ⟨[("FOO", "bar")], some "FOO=bar\n"⟩
      "  " "x").1 (by decide)
  · exact (recoverable_errors_no_mutation ⟨[("FOO", "bar")], some "FOO=bar\n"⟩
      "FOO" "baz").2.1 (by decide)
  · exact (recoverable_errors_no_mutation ⟨[("FOO", "bar")], some "FOO=bar\n"⟩
      "NOPE" "x").2.2.1 (by decide)
  · exact (recoverable_errors_no_mutation ⟨[("FOO", "bar")], some "FOO=bar\n"⟩
      "NOPE" "y").2.2.2.1 (by decide)
  · exact (recoverable_errors_no_mutation ⟨[("FOO", "bar")], some "FOO=bar\n"⟩
      "FOO" "n").2.2.2.2 (by decide) (by decide)

/-- C5: editing an existing key with input that strips to the empty string
keeps the current value (while still saving), a non-empty input overwrites
the entry and persists it, and in particular editing FOO with the empty
input leaves FOO mapped to bar. -/
theorem edit_keep_current_spec :
    (∀ (s : EnvState) (a b : String), (s.env_vars.map Prod.fst).Nodup →
      dictContains s.env_vars (pyStrip a) = true → pyStrip b = "" →
      (edit_var s a b).state.env_vars = s.env_vars ∧
        (edit_var s a b).saved = true) ∧
    (∀ (s : EnvState) (a b : String),
      dictContains s.env_vars (pyStrip a) = true → ¬ pyStrip b = "" →
      edit_var s a b =
        ⟨⟨dictInsert s.env_vars (pyStrip a) (pyStrip b),
          some (save_env_vars (dictInsert s.env_vars (pyStrip a) (pyStrip b)))⟩,
          true⟩) ∧
    (∀ d : Option String,
      (edit_var ⟨[("FOO", "bar")], d⟩ "FOO" "").state.env_vars =
        [("FOO", "bar")]) := by
  refine ⟨?_, ?_, ?_⟩
  · exact fun s a b hnd hc hb => edit_keepCurrent hnd hc hb
  · intro s a b hc hb
    rw [edit_var_eq, if_neg (by simp [hc]), if_neg hb]
  · intro d
    exact (edit_keepCurrent (s := ⟨[("FOO", "bar")], d⟩) (a := "FOO") (b := "")
      (by decide : ((([("FOO", "bar")] : Env)).map Prod.fst).Nodup)
      (by decide : dictContains [("FOO", "bar")] (pyStrip "FOO") = true)
      (by decide)).1

/-- C5 witness: the keep-current and the overwriting edit at concrete
stores. -/
theorem edit_keep_current_spec_witness :
    (edit_var ⟨[("FOO", "bar")], some "FOO=bar\n"⟩ "FOO" "").state.env_vars =
      [("FOO", "bar")] ∧
    edit_var ⟨[("FOO", "bar")], some "FOO=bar\n"⟩ "FOO" "baz" =
      ⟨⟨[("FOO", "baz")], some "FOO=baz\n"⟩, true⟩ := by
  constructor
  · exact (edit_keep_current_spec.1 ⟨[("FOO", "bar")], some "FOO=bar\n"⟩ "FOO" ""
      (by decide) (by decide) (by decide)).1
  · exact (edit_keep_current_spec.2.1 ⟨[("FOO", "bar")], some "FOO=bar\n"⟩
      "FOO" "baz" (by decide) (by decide)).trans (by decide)

/-- C6: deleting an existing key removes it and persists exactly when the
stripped confirmation, lowercased, equals y; any other confirmation leaves
the state untouched; concretely FOO survives an n answer, while y (and Y)
empty both the mapping and the file. -/
theorem delete_confirmation_spec :
    (∀ (s : EnvState) (a c : String),
      dictContains s.env_vars (pyStrip a) = true → pyLower (pyStrip c) = "y" →
      delete_var s a c =
        ⟨⟨dictDelete s.env_vars (pyStrip a),
          some (save_env_vars (dictDelete s.env_vars (pyStrip a)))⟩, true⟩) ∧
    (∀ (s : EnvState) (a c : String),
      dictContains s.env_vars (pyStrip a) = true → ¬ pyLower (pyStrip c) = "y" →
      delete_var s a c = ⟨s, false⟩) ∧
    (∀ d : Option String,
      delete_var ⟨[("FOO", "bar")], d⟩ "FOO" "n" =
        ⟨⟨[("FOO", "bar")], d⟩, false⟩) ∧
    delete_var ⟨[("FOO", "bar")], some "FOO=bar\n"⟩ "FOO" "y" =
      ⟨⟨[], some ""⟩, true⟩ ∧
    delete_var ⟨[("FOO", "bar")], some "FOO=bar\n"⟩ "FOO" "Y" =
      ⟨⟨[], some ""⟩, true⟩ := by
  refine ⟨?_, ?_, ?_, ?_, ?_⟩
  · intro s a c hc hy
    rw [delete_var_eq, if_neg (by simp [hc]), if_pos hy]
  · intro s a c hc hy
    rw [delete_var_eq, if_neg (by simp [hc]), if_neg hy]
  · intro d
    rw [delete_var_eq,
      if_neg (by decide : ¬¬ dictContains [("FOO", "bar")] (pyStrip "FOO") = true),
      if_neg (by decide : ¬ pyLower (pyStrip "n") = "y")]
  · decide
  · decide

/-- C6 witness: a confirmed (case-insensitive, whitespace-tolerant) delete
and a refused delete at concrete stores. -/
theorem delete_confirmation_spec_witness :
    delete_var ⟨[("FOO", "bar"), ("X", "1")], some "FOO=bar\nX=1\n"⟩
        "FOO" " Y " = ⟨⟨[("X", "1")], some "X=1\n"⟩, true⟩ ∧
    delete_var ⟨[("FOO", "bar")], some "FOO=bar\n"⟩ "FOO" "no" =
      ⟨⟨[("FOO", "bar")], some "FOO=bar\n"⟩, false⟩ := by
  constructor
  · exact (delete_confirmation_spec.1
      ⟨[("FOO", "bar"), ("X", "1")], some "FOO=bar\nX=1\n"⟩ "FOO" " Y "
      (by decide) (by decide)).trans (by decide)
  · exact delete_confirmation_spec.2.1 ⟨[("FOO", "bar")], some "FOO=bar\n"⟩
      "FOO" "no" (by decide) (by decide)

/-- C7: loading from a missing backing file yields the empty mapping without
failing, the freshly constructed manager still has no file on disk, and the
file comes into existence on the first save. -/
theorem missing_file_load_spec :
    load_env_vars none = [] ∧
    EnvManager_init none = ⟨[], none⟩ ∧
    (add_var (EnvManager_init none) "K" "V").saved = true ∧
    (add_var (EnvManager_init none) "K" "V").state.disk = some "K=V\n" := by
  decide

/-- C9: whitespace normalization is an invariant of the mapping: a fresh
load is normalized, and add, edit and delete each preserve normalization. -/
theorem mapping_normalized_invariant :
    (∀ d : Option String, NormalizedEnv (load_env_vars d)) ∧
    (∀ (s : EnvState) (a b : String), NormalizedEnv s.env_vars →
      NormalizedEnv (add_var s a b).state.env_vars) ∧
    (∀ (s : EnvState) (a b : String), NormalizedEnv s.env_vars →
      NormalizedEnv (edit_var s a b).state.env_vars) ∧
    (∀ (s : EnvState) (a b : String), NormalizedEnv s.env_vars →
      NormalizedEnv (delete_var s a b).state.env_vars) := by
  refine ⟨NormalizedEnv_load, ?_, ?_, ?_⟩
  · intro s a b hm
    rw [add_var_eq]
    by_cases h1 : pyStrip a = ""
    · rw [if_pos h1]
      exact hm
    · rw [if_neg h1]
      by_cases h2 : dictContains s.env_vars (pyStrip a) = true
      · rw [if_pos h2]
        exact hm
      · rw [if_neg h2]
        exact NormalizedEnv_dictInsert hm (pyStrip_idem a) (pyStrip_idem b)
  · intro s a b hm
    rw [edit_var_eq]
    by_cases h1 : dictContains s.env_vars (pyStrip a) = true
    · rw [if_neg (not_not_intro h1)]
      by_cases h2 : pyStrip b = ""
      · rw [if_pos h2]
        obtain ⟨v, hv⟩ := dictGet_isSome_of_contains h1
        rw [hv]
        simp only [Option.getD_some]
        obtain ⟨q, hq, hq2⟩ := dictGet_mem hv
        exact NormalizedEnv_dictInsert hm (pyStrip_idem a) (hq2 ▸ (hm q hq).2)
      · rw [if_neg h2]
        exact NormalizedEnv_dictInsert hm (pyStrip_idem a) (pyStrip_idem b)
    · rw [if_pos h1]
      exact hm
  · intro s a b hm
    rw [delete_var_eq]
    by_cases h1 : dictContains s.env_vars (pyStrip a) = true
    · rw [if_neg (not_not_intro h1)]
      by_cases h2 : pyLower (pyStrip b) = "y"
      · rw [if_pos h2]
        exact NormalizedEnv_dictDelete (pyStrip a) hm
      · rw [if_neg h2]
        exact hm
    · rw [if_pos h1]
      exact hm

/-- C9 witness: normalization after a concrete add with a padded value. -/
theorem mapping_normalized_invariant_witness :
    NormalizedEnv (add_var ⟨[("A", "b")], none⟩ "K" "  v  ").state.env_vars :=
  mapping_normalized_invariant.2.1 ⟨[("A", "b")], none⟩ "K" "  v  " (by decide)

/-- C10: add validates only the key for emptiness — a value stripping to the
empty string is accepted and stored as the empty value — whereas edit treats
any input stripping to empty, whitespace-only included, as keep-current and
never stores it. -/
theorem add_empty_value_edit_keep_spec :
    ((add_var ⟨[], none⟩ "K" "").state.env_vars = [("K", "")] ∧
      (add_var ⟨[], none⟩ "K" "").saved = true) ∧
    (∀ (s : EnvState) (a b : String), ¬ pyStrip a = "" →
      dictContains s.env_vars (pyStrip a) = false →
      add_var s a b =
        ⟨⟨dictInsert s.env_vars (pyStrip a) (pyStrip b),
          some (save_env_vars (dictInsert s.env_vars (pyStrip a) (pyStrip b)))⟩,
          true⟩) ∧
    (∀ (s : EnvState) (a b : String), (s.env_vars.map Prod.fst).Nodup →
      dictContains s.env_vars (pyStrip a) = true → pyStrip b = "" →
      (edit_var s a b).state.env_vars = s.env_vars) := by
  refine ⟨by decide, ?_, ?_⟩
  · intro s a b h1 h2
    rw [add_var_eq, if_neg h1, if_neg (by simp [h2])]
  · exact fun s a b hnd hc hb => (edit_keepCurrent hnd hc hb).1

/-- C10 witness: a whitespace-only value accepted by add as the empty value,
and a whitespace-only edit input that keeps the current value. -/
theorem add_empty_value_edit_keep_spec_witness :
    add_var ⟨[("A", "b")], none⟩ "K" "   " =
      ⟨⟨[("A", "b"), ("K", "")], some "A=b\nK=\n"⟩, true⟩ ∧
    (edit_var ⟨[("FOO", "bar")], none⟩ "FOO" "   ").state.env_vars =
      [("FOO", "bar")] := by
  constructor
  · exact (add_empty_value_edit_keep_spec.2.1 ⟨[("A", "b")], none⟩ "K" "   "
      (by decide) (by decide)).trans (by decide)
  · exact add_empty_value_edit_keep_spec.2.2 ⟨[("FOO", "bar")], none⟩ "FOO" "   "
      (by decide) (by decide) (by decide)
